import Mathlib

/-!
# Verification of the aws-diagrams pipeline

Shallow embedding of the terraform-to-diagram pipeline
(`tf_scanner.py`, `mappings.py`, `diagram_generator.py`) together with
proofs about the properties its specification states.

Python string primitives (`str.strip`, `str.split`, `str.splitlines`,
`str.replace`, `str.title`, the `re` scan used in
`extract_resource_references`) are modelled on `List Char` by functions
named `py*`; they follow CPython semantics on the ASCII range that the
scanned terraform text uses.
-/

namespace AwsDiagrams

/-! ## Python string primitives -/

/-- ASCII whitespace as recognised by Python `str.strip()` and `\s`. -/
def isPySpace (c : Char) : Bool :=
  c = ' ' || c = '\t' || c = '\n' || c = '\r' || c = '\x0b' || c = '\x0c'

/-- Drop characters satisfying `p` from both ends of a character list. -/
def stripCharsList (p : Char → Bool) (cs : List Char) : List Char :=
  ((cs.dropWhile p).reverse.dropWhile p).reverse

/-- Python `str.strip()` (ASCII whitespace). -/
def pyStrip (s : String) : String := ⟨stripCharsList isPySpace s.data⟩

/-- Python `str.strip('"')`. -/
def pyStripQuotes (s : String) : String := ⟨stripCharsList (fun c => c = '"') s.data⟩

/-- Is `sub` a contiguous sub-sequence of the second list? -/
def listIsInfix (sub : List Char) : List Char → Bool
  | [] => sub.isEmpty
  | c :: rest => sub.isPrefixOf (c :: rest) || listIsInfix sub rest

/-- Python `sub in s` substring containment. -/
def strContains (s sub : String) : Bool := listIsInfix sub.data s.data

/-- Python `s.startswith(pre)`. -/
def pyStartsWith (s pre : String) : Bool := pre.data.isPrefixOf s.data

/-- Python `s.endswith(suf)`. -/
def pyEndsWith (s suf : String) : Bool := suf.data.reverse.isPrefixOf s.data.reverse

/-- Line separators recognised by Python `str.splitlines()`. -/
def isLineBreak (c : Char) : Bool :=
  c = '\n' || c = '\r' || c = '\x0b' || c = '\x0c' || c = '\x1c' || c = '\x1d' ||
  c = '\x1e' || c = '\x85' || c = '\u2028' || c = '\u2029'

/-- Worker for `pySplitlines`; `cur` is the current line, reversed. -/
def splitlinesAux : List Char → List Char → List String
  | [], cur => if cur = [] then [] else [⟨cur.reverse⟩]
  | '\r' :: '\n' :: rest, cur => ⟨cur.reverse⟩ :: splitlinesAux rest []
  | c :: rest, cur =>
      if isLineBreak c then ⟨cur.reverse⟩ :: splitlinesAux rest []
      else splitlinesAux rest (c :: cur)

/-- Python `str.splitlines()`. -/
def pySplitlines (s : String) : List String := splitlinesAux s.data []

/-- Worker for `pySplitChar`; `cur` is the current field, reversed. -/
def splitCharAux (sep : Char) : List Char → List Char → List String
  | [], cur => [⟨cur.reverse⟩]
  | c :: rest, cur =>
      if c = sep then ⟨cur.reverse⟩ :: splitCharAux sep rest []
      else splitCharAux sep rest (c :: cur)

/-- Python `s.split(sep)` for a one-character separator. -/
def pySplitChar (s : String) (sep : Char) : List String := splitCharAux sep s.data []

/-- Fueled worker for `pyReplace` (the fuel is the input length, which
always suffices because every step consumes at least one character). -/
def replaceListAux (pat repl : List Char) : Nat → List Char → List Char
  | _, [] => []
  | 0, cs => cs
  | fuel + 1, c :: rest =>
      if pat ≠ [] ∧ pat.isPrefixOf (c :: rest) then
        repl ++ replaceListAux pat repl fuel ((c :: rest).drop pat.length)
      else
        c :: replaceListAux pat repl fuel rest

/-- Python `s.replace(pat, repl)` (non-overlapping, left to right). -/
def pyReplace (s pat repl : String) : String :=
  ⟨replaceListAux pat.data repl.data s.data.length s.data⟩

/-- Worker for `pyTitle`; the flag records whether the previous character
was alphabetic. -/
def pyTitleAux : Bool → List Char → List Char
  | _, [] => []
  | prevAlpha, c :: rest =>
      (if prevAlpha then c.toLower else c.toUpper) :: pyTitleAux c.isAlpha rest

/-- Python `str.title()` (ASCII letters). -/
def pyTitle (s : String) : String := ⟨pyTitleAux false s.data⟩

/-! ## Data model (`models.py`) -/

/-- `models.ResourceBlock`. -/
structure ResourceBlock where
  type : String
  name : String
  content : String
  identifier : String
deriving DecidableEq

/-- `models.Edge` (the `label` defaults to `None`). -/
structure Edge where
  source : String
  target : String
  label : Option String := none
deriving DecidableEq

/-- `models.Node`. -/
structure Node where
  id : String
  label : String
  parent : Option String := none
  identifier : Option String := none
deriving DecidableEq

/-! ## Block scanner (`tf_scanner.extract_resource_blocks`)

The Python function is a line loop over mutable locals
`blocks / current_block / brace_count / in_block / resource_type /
resource_name`; we embed it as a fold of `stepLine` over the split lines.
-/

/-- Number of occurrences of `c` in `s`, as an integer. -/
def countChar (c : Char) (s : String) : Int := (s.data.filter (fun d => d = c)).length

/-- Net brace depth change of one line: `line.count('{') - line.count('}')`. -/
def braceDelta (l : String) : Int := countChar '{' l - countChar '}' l

/-- The header recognition of lines 84-89: a stripped line starting with
`resource` whose split on `"` has at least 4 fields yields
`(parts[1], parts[3])`. -/
def headerQuoted (l : String) : Option (String × String) :=
  let stripped := pyStrip l
  if pyStartsWith stripped "resource" then
    let parts := pySplitChar stripped '"'
    if 4 ≤ parts.length then some (parts.getD 1 "", parts.getD 3 "") else none
  else none

/-- Does a line contain both the substring `name` and a `=` (line 103)? -/
def nameLineCond (l : String) : Bool := strContains l "name" && l.data.contains '='

/-- Lines 104-106: `line.split('=')[1].strip().strip('"')` guarded by
`len(name_parts) >= 2`. -/
def lineNameValue (l : String) : Option String :=
  let parts := pySplitChar l '='
  if 2 ≤ parts.length then some (pyStripQuotes (pyStrip (parts.getD 1 ""))) else none

/-- The `actual_name` loop of lines 101-107: first line that contains both
`name` and `=` supplies the value (and breaks). -/
def findActualName : List String → Option String
  | [] => none
  | l :: rest =>
      if nameLineCond l then
        match lineNameValue l with
        | some v => some v
        | none => findActualName rest
      else findActualName rest

/-- Python `a or b` for an optional string `a` (both `None` and `""` are
falsy). -/
def pyOr (a : Option String) (b : String) : String :=
  match a with
  | some v => if v = "" then b else v
  | none => b

/-- Python truthiness of an optional string. -/
def truthy (o : Option String) : Bool :=
  match o with
  | some s => s ≠ ""
  | none => false

/-- The mutable locals of `extract_resource_blocks`. -/
structure ScanState where
  blocks : List ResourceBlock
  currentBlock : List String
  braceCount : Int
  inBlock : Bool
  resourceType : Option String
  resourceName : Option String
deriving DecidableEq

/-- Initial scanner state (lines 74-79). -/
def initState : ScanState := ⟨[], [], 0, false, none, none⟩

/-- Lines 96-117: close the current block, emitting a `ResourceBlock` when
both the type and the name are truthy. -/
def closeBlock (s : ScanState) : ScanState :=
  let newBlocks :=
    if truthy s.resourceType && truthy s.resourceName then
      let rt := s.resourceType.getD ""
      let rn := s.resourceName.getD ""
      s.blocks ++ [{ type := rt,
                     name := pyOr (findActualName s.currentBlock) rn,
                     content := String.intercalate "\n" s.currentBlock,
                     identifier := rt ++ "." ++ rn }]
    else s.blocks
  { blocks := newBlocks, currentBlock := [], braceCount := 0, inBlock := false,
    resourceType := none, resourceName := none }

/-- One iteration of the `for line in content.splitlines()` loop
(lines 81-117). -/
def stepLine (s : ScanState) (line : String) : ScanState :=
  let s1 :=
    if !s.inBlock then
      match headerQuoted line with
      | some (rt, rn) =>
          { s with resourceType := some rt, resourceName := some rn, inBlock := true }
      | none => s
    else s
  if s1.inBlock then
    let s2 := { s1 with currentBlock := s1.currentBlock ++ [line],
                        braceCount := s1.braceCount + braceDelta line }
    if s2.braceCount = 0 then closeBlock s2 else s2
  else s1

/-- Run the scanner loop over a list of lines. -/
def scanLines (s : ScanState) (ls : List String) : ScanState := ls.foldl stepLine s

/-- `extract_resource_blocks` on an already split line list. -/
def extract_resource_blocks_lines (ls : List String) : List ResourceBlock :=
  (scanLines initState ls).blocks

/-- `tf_scanner.extract_resource_blocks`. -/
def extract_resource_blocks (content : String) : List ResourceBlock :=
  extract_resource_blocks_lines (pySplitlines content)

/-! ## Reference extractor (`mappings.extract_resource_references`)

The Python function runs `re.finditer` with the pattern

  `(?:^|\s|=|\(|\[)([a-zA-Z0-9_]+\.[a-zA-Z0-9_]+)(?:\.[a-zA-Z0-9_]+)?(?=\s|$|\)|\]|,)`

and returns the first capture group of every match.  Since the character
class `[a-zA-Z0-9_]` cannot match `.`, backtracking never helps: each
`+` run is the maximal word-character run, so matching at a given start
position is deterministic and the whole scan is the functional scan
below.  `scanRefsAux` also records the start position of each capture,
which lets us state order-of-occurrence properties.
-/

/-- The regex character class `[a-zA-Z0-9_]`. -/
def isWordChar (c : Char) : Bool :=
  ('a' ≤ c && c ≤ 'z') || ('A' ≤ c && c ≤ 'Z') || ('0' ≤ c && c ≤ '9') || c = '_'

/-- The lookahead `(?=\s|$|\)|\]|,)`. -/
def refLookahead : List Char → Bool
  | [] => true
  | c :: _ => isPySpace c || c = ')' || c = ']' || c = ','

/-- The single-character alternatives of the leading group `(?:^|\s|=|\(|\[)`. -/
def isRefDelim (c : Char) : Bool := isPySpace c || c = '=' || c = '(' || c = '['

/-- Match `([w]+\.[w]+)(?:\.[w]+)?(?=\s|$|\)|\]|,)` at the head of `cs`;
returns the capture and the unconsumed suffix (the lookahead consumes
nothing). -/
def matchRef (cs : List Char) : Option (String × List Char) :=
  let seg1 := cs.takeWhile isWordChar
  let r1 := cs.dropWhile isWordChar
  if seg1 = [] then none else
  match r1 with
  | '.' :: r2 =>
      let seg2 := r2.takeWhile isWordChar
      let r3 := r2.dropWhile isWordChar
      if seg2 = [] then none else
      let ident : String := ⟨seg1 ++ '.' :: seg2⟩
      match r3 with
      | '.' :: r4 =>
          let seg3 := r4.takeWhile isWordChar
          let r5 := r4.dropWhile isWordChar
          if seg3 ≠ [] && refLookahead r5 then some (ident, r5) else none
      | _ => if refLookahead r3 then some (ident, r3) else none
  | _ => none

/-- Fueled scan loop of `re.finditer`: try the pattern at every position,
restarting after each match at its end.  `pos` is the index of the head
of `cs` in the original string, `atStart` tells whether `^` applies.
The fuel decreases by one per consumed character, so `length + 1` fuel
always completes the scan. -/
def scanRefsAux : Nat → List Char → Nat → Bool → List (Nat × String)
  | 0, _, _, _ => []
  | _ + 1, [], _, _ => []
  | fuel + 1, c :: rest, pos, atStart =>
      if atStart then
        match matchRef (c :: rest) with
        | some (id, r) =>
            (pos, id) :: scanRefsAux fuel r (pos + ((c :: rest).length - r.length)) false
        | none =>
            if isRefDelim c then
              match matchRef rest with
              | some (id, r) =>
                  (pos + 1, id) :: scanRefsAux fuel r (pos + 1 + (rest.length - r.length)) false
              | none => scanRefsAux fuel rest (pos + 1) false
            else scanRefsAux fuel rest (pos + 1) false
      else
        if isRefDelim c then
          match matchRef rest with
          | some (id, r) =>
              (pos + 1, id) :: scanRefsAux fuel r (pos + 1 + (rest.length - r.length)) false
          | none => scanRefsAux fuel rest (pos + 1) false
        else scanRefsAux fuel rest (pos + 1) false

/-- All matches of the reference pattern with their capture positions. -/
def extractRefsPos (content : String) : List (Nat × String) :=
  scanRefsAux (content.data.length + 1) content.data 0 true

/-- `mappings.extract_resource_references`. -/
def extract_resource_references (content : String) : List String :=
  (extractRefsPos content).map Prod.snd

/-! ## Graph builder (`mappings.py`) -/

/-- `mappings.create_edges_from_block`. -/
def create_edges_from_block (block : ResourceBlock) : List Edge :=
  let contentLines := ((pySplitlines block.content).drop 1).dropLast
  let content := String.intercalate "\n" contentLines
  let references := extract_resource_references content
  (references.filter (fun t => t != block.identifier)).map
    (fun t => { source := block.identifier, target := t })

/-- `mappings.create_diagram_edges`. -/
def create_diagram_edges (resources : List ResourceBlock) : List Edge :=
  resources.flatMap create_edges_from_block

/-- `mappings.get_resource_parent` (`dict.get`: both missing keys and the
explicit `None` values give `none`). -/
def get_resource_parent (resource_type : String) : Option String :=
  match resource_type with
  | "aws_vpc" => some "region"
  | "aws_subnet" => some "vpc"
  | "aws_lb" => some "vpc"
  | "aws_ecs_service" => some "private-subnet"
  | "aws_ecs_cluster" => some "private-subnet"
  | "aws_wafregional_web_acl" => some "region"
  | _ => none

/-- `mappings.get_resource_label`. -/
def get_resource_label (resource_type name : String) : String :=
  let base :=
    match resource_type with
    | "aws_vpc" => "VPC"
    | "aws_subnet" => "Subnet"
    | "aws_lb" => "Load Balancer"
    | "aws_ecs_service" => "ECS Service"
    | "aws_ecs_cluster" => "ECS Cluster"
    | "aws_cloudfront_distribution" => "CloudFront"
    | "aws_waf_web_acl" => "WAF"
    | "aws_wafregional_web_acl" => "Regional WAF"
    | _ => pyTitle (pyReplace (pyReplace resource_type "aws_" "") "_" " ")
  base ++ ": " ++ name

/-- The node-id derivation of `create_diagram_nodes`:
`resource.identifier.replace(".", "-")`. -/
def dotToDash (s : String) : String :=
  ⟨s.data.map (fun c => if c = '.' then '-' else c)⟩

/-- `mappings.create_diagram_nodes`. -/
def create_diagram_nodes (resources : List ResourceBlock) : List Node :=
  [{ id := "aws-cloud", label := "AWS Cloud" },
   { id := "region", label := "AWS Region", parent := some "aws-cloud" }] ++
  resources.map (fun r =>
    { id := dotToDash r.identifier,
      label := get_resource_label r.type r.name,
      parent := get_resource_parent r.type,
      identifier := some r.identifier })

/-! ## Icon lookup (`diagram_generator.get_node_class`) -/

/-- The `diagrams` node classes imported by `diagram_generator.py`. -/
inductive NodeClass where
  | ECS
  | InternetGateway
  | Route53
  | RouteTable
  | VPC
  | PrivateSubnet
  | PublicSubnet
  | Nacl
  | IAMRole
  | General
deriving DecidableEq

/-- `RESOURCE_TO_NODE`, in dict insertion order (the suffix-match loop
iterates it in this order). -/
def RESOURCE_TO_NODE : List (String × NodeClass) :=
  [("aws_vpc", .VPC),
   ("aws_subnet", .PublicSubnet),
   ("aws_internet_gateway", .InternetGateway),
   ("aws_route_table", .RouteTable),
   ("aws_security_group", .Nacl),
   ("aws_iam_role", .IAMRole),
   ("aws_ecs_cluster", .ECS),
   ("aws_ecs_service", .ECS),
   ("aws_ecs_task_definition", .ECS),
   ("provider", .General)]

/-- Key lookup in `RESOURCE_TO_NODE`. -/
def lookupNodeTable (k : String) : Option NodeClass :=
  (RESOURCE_TO_NODE.find? (fun p => p.1 == k)).map Prod.snd

/-- `diagram_generator.get_node_class`.  The outer `Option` is the
control flow: `none` models the `IndexError` that
`resource_type.split("_")[1]` raises when the kind contains no
underscore, while `some r` is a normal return (`r = none` being
Python's `None`). -/
def get_node_class (resource_type : String) : Option (Option NodeClass) :=
  if pyStartsWith resource_type "provider-" then
    some (lookupNodeTable "provider")
  else
    match lookupNodeTable resource_type with
    | some v => some (some v)
    | none =>
        match (pySplitChar resource_type '_').get? 1 with
        | none => none
        | some base =>
            some ((RESOURCE_TO_NODE.find? (fun p => pyEndsWith p.1 base)).map Prod.snd)

/-! ## Cluster resolver (`DiagramGenerator._get_cluster_nodes`)

The YAML node/edge dictionaries read by the resolver are modelled by
`YamlNode` / `YamlEdge` (`write_diagram_yaml` only emits the `parent`
key when it is truthy, and `if parent := node.get("parent")` skips both
a missing key and an empty string, so `parent` is an `Option` whose
`some ""` value is also skipped).  `cluster_nodes` is a dict keyed by
cluster id whose values are sets: we embed it as an association list
`CState` in insertion order, with `Finset String` members.  The
`while changed` loop stops exactly when a full pass adds nothing,
i.e. when a pass leaves the state equal; `resolveAux` runs passes with
enough fuel to reach that fixed point (proved below).
-/

/-- A node of the YAML document, as read by the resolver. -/
structure YamlNode where
  id : String
  parent : Option String
deriving DecidableEq

/-- An edge of the YAML document. -/
structure YamlEdge where
  source : String
  target : String
deriving DecidableEq

/-- The `cluster_nodes` dict: cluster ids in insertion order with their
member sets. -/
abbrev CState := List (String × Finset String)

/-- `cluster_nodes[parent].add(node["id"])`, creating the key if absent. -/
def addSeed (acc : CState) (p id : String) : CState :=
  if acc.any (fun q => q.1 == p) then
    acc.map (fun q => if q.1 = p then (q.1, insert id q.2) else q)
  else acc ++ [(p, {id})]

/-- One node of the seeding loop: a truthy parent hint seeds that
cluster. -/
def seedStep (acc : CState) (n : YamlNode) : CState :=
  match n.parent with
  | some p => if p ≠ "" then addSeed acc p n.id else acc
  | none => acc

/-- Lines 93-98: seed each cluster from the direct parent relationships. -/
def seedClusters (nodes : List YamlNode) : CState :=
  nodes.foldl seedStep []

/-- Lines 101-110: the undirected adjacency of a node id. -/
def adjOf (edges : List YamlEdge) (x : String) : Finset String :=
  ((edges.filter (fun e => e.source == x)).map YamlEdge.target).toFinset ∪
  ((edges.filter (fun e => e.target == x)).map YamlEdge.source).toFinset

/-- Is `c` claimed by no cluster other than `cid` (the
`not any(... if other_id != cluster_id)` test)? -/
def unclaimedElsewhere (st : CState) (cid c : String) : Bool :=
  st.all (fun q => q.1 == cid || ! decide (c ∈ q.2))

/-- Lines 117-126: the `new_members` computed for one cluster against the
current state. -/
def newMembersOf (adj : String → Finset String) (st : CState)
    (cid : String) (members : Finset String) : Finset String :=
  members.biUnion (fun m =>
    (adj m).filter (fun c => c ∉ members ∧ unclaimedElsewhere st cid c = true))

/-- `members.update(new_members)` for the cluster keyed `cid` (the other
entries are untouched). -/
def updateCluster (adj : String → Finset String) (st : CState) (cid : String) : CState :=
  st.map (fun q =>
    if q.1 = cid then (q.1, q.2 ∪ newMembersOf adj st q.1 q.2) else q)

/-- One full pass of the `for cluster_id, members in cluster_nodes.items()`
loop: clusters are processed in insertion order and each update is
visible to the later ones in the same pass. -/
def onePass (adj : String → Finset String) (st : CState) : CState :=
  (st.map Prod.fst).foldl (updateCluster adj) st

/-- The `while changed` loop, fueled: run passes until one changes
nothing. -/
def resolveAux (adj : String → Finset String) : Nat → CState → CState
  | 0, st => st
  | fuel + 1, st =>
      let st' := onePass adj st
      if st' = st then st else resolveAux adj fuel st'

/-- Every node id occurring in the input (bounds all member sets). -/
def clusterUniverse (nodes : List YamlNode) (edges : List YamlEdge) : Finset String :=
  (nodes.map YamlNode.id).toFinset ∪ (edges.map YamlEdge.source).toFinset ∪
    (edges.map YamlEdge.target).toFinset

/-- `DiagramGenerator._get_cluster_nodes`: seed, then iterate passes to
the fixed point.  The fuel `|clusters| * |universe| + 1` suffices
because each pass that changes anything strictly increases the total
member count, which `resolveAux_fix` below turns into the termination
guarantee of the Python `while` loop. -/
def get_cluster_nodes (nodes : List YamlNode) (edges : List YamlEdge) : CState :=
  let seeds := seedClusters nodes
  resolveAux (adjOf edges) (seeds.length * (clusterUniverse nodes edges).card + 1) seeds

/-! ## C4: no self-loop edges -/

/-- C4: every edge emitted by `create_edges_from_block` has its target
different from the declaring record's identifier and its source equal to
it, so no emitted edge is a self-loop (`source == target`). -/
theorem c4_no_self_loops (b : ResourceBlock) (e : Edge)
    (he : e ∈ create_edges_from_block b) : e.source ≠ e.target := by
  simp only [create_edges_from_block, List.mem_map, List.mem_filter] at he
  obtain ⟨t, ⟨ht, hne⟩, rfl⟩ := he
  simpa using (bne_iff_ne.mp hne).symm

/-- C4 witness: a concrete block whose body references `c.d`; the edge
produced for it is not a self-loop. -/
theorem c4_witness :
    Edge.mk "t.n" "c.d" none ∈
        create_edges_from_block
          (ResourceBlock.mk "t" "n" "resource \"t\" \"n\" \x7b\nx = c.d\n\x7d" "t.n") ∧
      (Edge.mk "t.n" "c.d" none).source ≠ (Edge.mk "t.n" "c.d" none).target :=
  ⟨by decide,
    c4_no_self_loops
      (ResourceBlock.mk "t" "n" "resource \"t\" \"n\" \x7b\nx = c.d\n\x7d" "t.n")
      (Edge.mk "t.n" "c.d" none) (by decide)⟩

/-! ## C9: the icon lookup is not total -/

/-- A Python split always has at least one field. -/
theorem splitCharAux_length_pos {sep : Char} :
    ∀ (cs cur : List Char), 1 ≤ (splitCharAux sep cs cur).length := by
  intro cs
  induction cs with
  | nil => intro cur; simp [splitCharAux]
  | cons c rest ih =>
      intro cur
      by_cases hc : c = sep <;> simp [splitCharAux, hc, ih]

/-- Auxiliary: if `sep` occurs in `cs`, the split has at least two
fields. -/
theorem splitCharAux_length_of_mem {sep : Char} :
    ∀ (cs cur : List Char), sep ∈ cs → 2 ≤ (splitCharAux sep cs cur).length := by
  intro cs
  induction cs with
  | nil => intro cur h; cases h
  | cons c rest ih =>
      intro cur h
      by_cases hc : c = sep
      · simp [splitCharAux, hc, splitCharAux_length_pos]
      · have : sep ∈ rest := by
          rcases List.mem_cons.mp h with h1 | h1
          · exact absurd h1.symm hc
          · exact h1
        simpa [splitCharAux, hc] using ih _ this

/-- Auxiliary: if `sep` does not occur in `cs`, the split is a single
field. -/
theorem splitCharAux_of_not_mem {sep : Char} :
    ∀ (cs cur : List Char), sep ∉ cs →
      splitCharAux sep cs cur = [⟨cur.reverse ++ cs⟩] := by
  intro cs
  induction cs with
  | nil => intro cur _; simp [splitCharAux]
  | cons c rest ih =>
      intro cur h
      have hc : ¬ c = sep := fun hcs => h (hcs ▸ List.mem_cons_self c rest)
      have hr : sep ∉ rest := fun hm => h (List.mem_cons_of_mem c hm)
      simp [splitCharAux, hc, ih _ hr]

/-- C9 counterexample: the claim states the lookup is total, but
`get_node_class "region"` raises `IndexError` (modelled by the outer
`none`): `"region"` misses the provider and direct matches and contains
no underscore, so `resource_type.split("_")[1]` is out of range. -/
theorem c9_counterexample : get_node_class "region" = none := by decide

/-- The second field of a Python split exists exactly when the separator
occurs in the string. -/
theorem pySplitChar_get1_some {s : String} {sep : Char} (h : sep ∈ s.data) :
    ∃ v, (pySplitChar s sep).get? 1 = some v := by
  have h2 : 2 ≤ (pySplitChar s sep).length :=
    splitCharAux_length_of_mem s.data [] h
  rcases hg : (pySplitChar s sep).get? 1 with _ | v
  · rw [List.get?_eq_none] at hg
    omega
  · exact ⟨v, rfl⟩

/-- When the separator is absent, the Python split has no second field. -/
theorem pySplitChar_get1_none {s : String} {sep : Char} (h : sep ∉ s.data) :
    (pySplitChar s sep).get? 1 = none := by
  simp [pySplitChar, splitCharAux_of_not_mem _ _ h]

/-- C9 amended: the lookup follows direct match then suffix match, but it
is total only on kinds that start with `provider-`, are direct keys of
the table, or contain an underscore; on every other kind it raises
`IndexError`. -/
theorem c9_lookup_total_iff (resource_type : String) :
    (get_node_class resource_type).isSome = true ↔
      (pyStartsWith resource_type "provider-" = true ∨
        (lookupNodeTable resource_type).isSome = true ∨
        '_' ∈ resource_type.data) := by
  unfold get_node_class
  by_cases hp : pyStartsWith resource_type "provider-" = true
  · simp [hp]
  · simp only [Bool.not_eq_true] at hp
    rw [hp]
    simp only [Bool.false_eq_true, if_false]
    cases hl : lookupNodeTable resource_type with
    | some v => simp [hl]
    | none =>
        by_cases hm : '_' ∈ resource_type.data
        · obtain ⟨v, hv⟩ := pySplitChar_get1_some (s := resource_type) hm
          rw [hv]
          simp [hm]
        · rw [pySplitChar_get1_none (s := resource_type) hm]
          simp [hm, hp, hl]

/-! ## C7: node-id derivation is not injective on arbitrary identifiers -/

/-- C7 counterexample: two records with distinct identifiers `a.b-c` and
`a-b.c` obtain the same derived node id `a-b-c`, so the claimed
injectivity fails when identifiers may contain dashes. -/
theorem c7_counterexample :
    (⟨"a", "n", "", "a.b-c"⟩ : ResourceBlock).identifier ≠
        (⟨"a-b", "n", "", "a-b.c"⟩ : ResourceBlock).identifier ∧
      (create_diagram_nodes
            [⟨"a", "n", "", "a.b-c"⟩, ⟨"a-b", "n", "", "a-b.c"⟩]).map Node.id =
        ["aws-cloud", "region", "a-b-c", "a-b-c"] := by decide

/-- Mapping `.` to `-` is injective on dash-free character lists. -/
theorem dotToDash_data_inj :
    ∀ (as bs : List Char), (∀ c ∈ as, c ≠ '-') → (∀ c ∈ bs, c ≠ '-') →
      as.map (fun c => if c = '.' then '-' else c) =
        bs.map (fun c => if c = '.' then '-' else c) → as = bs := by
  intro as
  induction as with
  | nil =>
      intro bs _ _ h
      cases bs with
      | nil => rfl
      | cons b bs => simp at h
  | cons a as ih =>
      intro bs h1 h2 h
      cases bs with
      | nil => simp at h
      | cons b bs =>
          simp only [List.map_cons, List.cons.injEq] at h
          obtain ⟨hab, htail⟩ := h
          have ha : a ≠ '-' := h1 a (List.mem_cons_self a as)
          have hb : b ≠ '-' := h2 b (List.mem_cons_self b bs)
          have hab2 : a = b := by
            by_cases ha' : a = '.' <;> by_cases hb' : b = '.' <;>
              simp [ha', hb'] at hab <;> first
              | exact ha'.trans hb'.symm
              | exact absurd hab.symm hb
              | exact absurd hab ha
              | exact hab
          rw [hab2, ih bs (fun c hc => h1 c (List.mem_cons_of_mem a hc))
            (fun c hc => h2 c (List.mem_cons_of_mem b hc)) htail]

/-- C7 amended: the node-id derivation `dotToDash` (the
`identifier.replace(".", "-")` of `create_diagram_nodes`) is
deterministic, and it is injective on record sets whose identifiers are
pairwise distinct *and* contain no dash character; distinct identifiers
containing dashes may collide. -/
theorem c7_node_id_injective (r1 r2 : ResourceBlock)
    (h1 : '-' ∉ r1.identifier.data) (h2 : '-' ∉ r2.identifier.data)
    (hne : r1.identifier ≠ r2.identifier) :
    dotToDash r1.identifier ≠ dotToDash r2.identifier := by
  intro h
  apply hne
  have hd := congrArg String.data h
  simp only [dotToDash] at hd
  exact String.ext (dotToDash_data_inj r1.identifier.data r2.identifier.data
    (fun c hc hcd => h1 (hcd ▸ hc)) (fun c hc hcd => h2 (hcd ▸ hc)) hd)

/-- C7 witness: two dash-free distinct identifiers keep distinct node
ids. -/
theorem c7_witness :
    '-' ∉ ("a.b" : String).data ∧ '-' ∉ ("a.c" : String).data ∧
      dotToDash (⟨"a", "n", "", "a.b"⟩ : ResourceBlock).identifier ≠
        dotToDash (⟨"a", "m", "", "a.c"⟩ : ResourceBlock).identifier :=
  ⟨by decide, by decide,
    c7_node_id_injective ⟨"a", "n", "", "a.b"⟩ ⟨"a", "m", "", "a.c"⟩
      (by decide) (by decide) (by decide)⟩

/-! ## C6: name override uses the first `=`-field, with empty fallback -/

/-- The text strictly between the first and the second `=` of a line
(everything after the first `=` when there is no second one). -/
def firstEqField (l : String) : String :=
  ⟨((l.data.dropWhile (fun c => c != '=')).drop 1).takeWhile (fun c => c != '=')⟩

/-- The first field of a Python split. -/
theorem splitCharAux_head {sep : Char} :
    ∀ (cs cur : List Char),
      (splitCharAux sep cs cur).head? =
        some ⟨cur.reverse ++ cs.takeWhile (fun c => c != sep)⟩ := by
  intro cs
  induction cs with
  | nil => intro cur; simp [splitCharAux]
  | cons c rest ih =>
      intro cur
      by_cases hc : c = sep
      · simp [splitCharAux, hc, List.takeWhile_cons]
      · have hbne : (c != sep) = true := bne_iff_ne.mpr hc
        simp [splitCharAux, hc, ih (c :: cur), List.takeWhile_cons, hbne]

/-- The second field of a Python split is the text between the first and
second separators. -/
theorem splitCharAux_get1 {sep : Char} :
    ∀ (cs cur : List Char), sep ∈ cs →
      (splitCharAux sep cs cur).get? 1 =
        some ⟨((cs.dropWhile (fun c => c != sep)).drop 1).takeWhile (fun c => c != sep)⟩ := by
  intro cs
  induction cs with
  | nil => intro cur h; cases h
  | cons c rest ih =>
      intro cur h
      by_cases hc : c = sep
      · subst hc
        have hsplit : splitCharAux c (c :: rest) cur = ⟨cur.reverse⟩ :: splitCharAux c rest [] := by
          simp [splitCharAux]
        rw [List.get?_eq_getElem?, hsplit, List.getElem?_cons_succ, ← List.head?_eq_getElem?,
          splitCharAux_head rest []]
        simp [List.dropWhile_cons]
      · have hbne : (c != sep) = true := bne_iff_ne.mpr hc
        have hrest : sep ∈ rest := by
          rcases List.mem_cons.mp h with h1 | h1
          · exact absurd h1.symm hc
          · exact h1
        have ihr := ih (c :: cur) hrest
        rw [List.get?_eq_getElem?] at ihr
        simp [splitCharAux, hc, ihr, List.dropWhile_cons, hbne]

/-- When the line contains a `=`, `lineNameValue` strips the text between
the first two `=` characters. -/
theorem lineNameValue_of_mem {l : String} (h : '=' ∈ l.data) :
    lineNameValue l = some (pyStripQuotes (pyStrip (firstEqField l))) := by
  unfold lineNameValue
  have hlen := splitCharAux_length_of_mem l.data [] h
  have hget := splitCharAux_get1 l.data [] h
  have hcond : 2 ≤ (pySplitChar l '=').length := hlen
  rw [if_pos hcond]
  have : (pySplitChar l '=').getD 1 "" = firstEqField l := by
    show ((pySplitChar l '=').get? 1).getD "" = firstEqField l
    rw [show (pySplitChar l '=').get? 1 = (splitCharAux '=' l.data []).get? 1 from rfl, hget]
    rfl
  rw [this]

/-- If no line satisfies the name condition, no actual name is found. -/
theorem findActualName_none :
    ∀ (ls : List String), (∀ x ∈ ls, nameLineCond x = false) →
      findActualName ls = none := by
  intro ls
  induction ls with
  | nil => intro _; rfl
  | cons l rest ih =>
      intro h
      have hl := h l (List.mem_cons_self l rest)
      simp [findActualName, hl, ih (fun x hx => h x (List.mem_cons_of_mem l hx))]

/-- The first line satisfying the name condition supplies the value. -/
theorem findActualName_decomp (pre post : List String) (l : String)
    (hpre : ∀ x ∈ pre, nameLineCond x = false) (hl : nameLineCond l = true) :
    findActualName (pre ++ l :: post) =
      some (pyStripQuotes (pyStrip (firstEqField l))) := by
  induction pre with
  | nil =>
      have hmem : '=' ∈ l.data := by
        have hc : l.data.contains '=' = true := by
          have := hl
          unfold nameLineCond at this
          exact (Bool.and_eq_true _ _).mp this |>.2
        exact List.mem_of_elem_eq_true hc
      simp [findActualName, hl, lineNameValue_of_mem hmem]
  | cons p pre ih =>
      have hp := hpre p (List.mem_cons_self p pre)
      simp only [List.cons_append, findActualName, hp, Bool.false_eq_true, if_false]
      exact ih (fun x hx => hpre x (List.mem_cons_of_mem p hx))

/-- C6 counterexample: for the block
`resource "t" "hdr" { name = "a=b" }` the claim predicts the effective
name `a=b` (the trimmed right-hand side of the first name line), but the
code takes `line.split('=')[1]` — the text between the *first two* `=`
characters — and produces `a`. -/
theorem c6_counterexample :
    (extract_resource_blocks
        "resource \"t\" \"hdr\" \x7b\n  name = \"a=b\"\n\x7d").map ResourceBlock.name =
      ["a"] ∧ ("a" : String) ≠ "a=b" := by decide

/-- C6 amended: for every closed record, if some accumulated line contains
both the substring `"name"` and a `=`, the effective name is the text
between the first and second `=` of the *first* such line, trimmed of
surrounding whitespace and then double quotes — unless that trimmed text
is empty, in which case (as when no such line exists) the header-derived
name is used. -/
theorem c6_name_override :
    (∀ (pre post : List String) (l hdr : String),
        (∀ x ∈ pre, nameLineCond x = false) → nameLineCond l = true →
        pyOr (findActualName (pre ++ l :: post)) hdr =
          (if pyStripQuotes (pyStrip (firstEqField l)) = "" then hdr
           else pyStripQuotes (pyStrip (firstEqField l)))) ∧
    (∀ (ls : List String) (hdr : String),
        (∀ x ∈ ls, nameLineCond x = false) →
        pyOr (findActualName ls) hdr = hdr) := by
  constructor
  · intro pre post l hdr hpre hl
    rw [findActualName_decomp pre post l hpre hl]
    rfl
  · intro ls hdr h
    rw [findActualName_none ls h]
    rfl

/-- C6 witness: both branches of the amended statement at concrete
inputs — an overriding `name` line, and a block with no name line. -/
theorem c6_witness :
    pyOr (findActualName (["a = b"] ++ "  name = \"x\"" :: ["\x7d"])) "hdr" =
        (if pyStripQuotes (pyStrip (firstEqField "  name = \"x\"")) = "" then "hdr"
         else pyStripQuotes (pyStrip (firstEqField "  name = \"x\""))) ∧
      pyOr (findActualName ["foo", "bar = 1"]) "hdr" = "hdr" :=
  ⟨c6_name_override.1 ["a = b"] ["\x7d"] "  name = \"x\"" "hdr" (by decide) (by decide),
   c6_name_override.2 ["foo", "bar = 1"] "hdr" (by decide)⟩

/-! ## C8: unbalanced braces absorb the rest of the input, no error -/

/-- While inside a block, a line whose delta keeps the count nonzero is
simply appended. -/
theorem stepLine_inBlock_open (s : ScanState) (l : String)
    (hin : s.inBlock = true) (hnz : s.braceCount + braceDelta l ≠ 0) :
    stepLine s l = { s with currentBlock := s.currentBlock ++ [l],
                            braceCount := s.braceCount + braceDelta l } := by
  unfold stepLine
  simp [hin, hnz]

/-- C8: the scanner is a total function of its input (the embedding
returns a plain list, mirroring Python code with no raise path), and a
record whose running brace counter never returns to zero is never
emitted: starting from any in-block state, if every prefix of the
remaining lines keeps the counter nonzero, then no block is appended to
the output, every remaining line is absorbed into the pending record,
and the scanner is still inside the block at the end of input. -/
theorem c8_malformed_absorbed (s : ScanState) (ls : List String)
    (hin : s.inBlock = true)
    (hnz : ∀ i : Fin ls.length,
      s.braceCount + ((ls.take (i.1 + 1)).map braceDelta).sum ≠ 0) :
    (scanLines s ls).blocks = s.blocks ∧
      (scanLines s ls).currentBlock = s.currentBlock ++ ls ∧
      (scanLines s ls).inBlock = true := by
  induction ls generalizing s with
  | nil => exact ⟨rfl, by simp [scanLines], hin⟩
  | cons l rest ih =>
      have hnz1 : s.braceCount + braceDelta l ≠ 0 := by
        have := hnz ⟨0, by simp⟩
        simpa using this
      have hstep := stepLine_inBlock_open s l hin hnz1
      have hrec := ih { s with currentBlock := s.currentBlock ++ [l],
                               braceCount := s.braceCount + braceDelta l }
        hin
        (by
          intro i
          have := hnz ⟨i.1 + 1, by simp only [List.length_cons]; omega⟩
          simpa [List.take_succ_cons, add_assoc] using this)
      have hfold : scanLines s (l :: rest) =
          scanLines { s with currentBlock := s.currentBlock ++ [l],
                             braceCount := s.braceCount + braceDelta l } rest := by
        unfold scanLines
        rw [List.foldl_cons, hstep]
      rw [hfold]
      refine ⟨hrec.1, ?_, hrec.2.2⟩
      rw [hrec.2.1]
      simp

/-- C8 witness: a state inside an open block (one unmatched `{`), two
further lines whose running count stays nonzero; nothing is emitted and
both lines are absorbed. -/
theorem c8_witness :
    (scanLines ⟨[], ["resource \"a\" \"b\" \x7b"], 1, true, some "a", some "b"⟩
          ["x = 1", "\x7d\x7d"]).blocks = [] ∧
      (scanLines ⟨[], ["resource \"a\" \"b\" \x7b"], 1, true, some "a", some "b"⟩
          ["x = 1", "\x7d\x7d"]).currentBlock =
        ["resource \"a\" \"b\" \x7b"] ++ ["x = 1", "\x7d\x7d"] ∧
      (scanLines ⟨[], ["resource \"a\" \"b\" \x7b"], 1, true, some "a", some "b"⟩
          ["x = 1", "\x7d\x7d"]).inBlock = true :=
  c8_malformed_absorbed
    ⟨[], ["resource \"a\" \"b\" \x7b"], 1, true, some "a", some "b"⟩
    ["x = 1", "\x7d\x7d"] rfl (by decide)

/-! ## C10: a brace-balanced header line closes its record immediately -/

/-- The scanner step only ever appends to `blocks`, and the rest of the
step does not depend on `blocks`. -/
theorem stepLine_blocks_mono (s : ScanState) (bs : List ResourceBlock) (l : String) :
    stepLine { s with blocks := bs ++ s.blocks } l =
      { stepLine s l with blocks := bs ++ (stepLine s l).blocks } := by
  unfold stepLine closeBlock
  by_cases hin : s.inBlock
  · simp only [hin, Bool.not_true, Bool.false_eq_true, if_false]
    by_cases hz : s.braceCount + braceDelta l = 0 <;>
      by_cases ht : (truthy s.resourceType && truthy s.resourceName) = true <;>
        simp [hz, ht, List.append_assoc]
  · simp only [Bool.not_eq_true] at hin
    simp only [hin, Bool.not_false, if_true]
    rcases hh : headerQuoted l with _ | ⟨rt, rn⟩
    · simp [hh, hin]
    · by_cases hz : s.braceCount + braceDelta l = 0 <;>
        by_cases ht : (truthy (some rt) && truthy (some rn)) = true <;>
          simp [hh, hz, ht, List.append_assoc]

/-- Lifting `stepLine_blocks_mono` to a whole scan. -/
theorem scanLines_blocks_mono :
    ∀ (ls : List String) (s : ScanState) (bs : List ResourceBlock),
      scanLines { s with blocks := bs ++ s.blocks } ls =
        { scanLines s ls with blocks := bs ++ (scanLines s ls).blocks } := by
  intro ls
  induction ls with
  | nil => intro s bs; rfl
  | cons l rest ih =>
      intro s bs
      show scanLines (stepLine { s with blocks := bs ++ s.blocks } l) rest = _
      rw [stepLine_blocks_mono]
      exact ih (stepLine s l) bs

/-- `String.intercalate` on a single line is that line. -/
theorem intercalate_singleton (a : String) : String.intercalate "\n" [a] = a := rfl

/-- A scan started from a fresh state carrying one emitted block prepends
that block to the scan of the same lines from the initial state. -/
theorem scanLines_one_block (ls : List String) (b : ResourceBlock) :
    scanLines ⟨[b], [], 0, false, none, none⟩ ls =
      { scanLines initState ls with blocks := b :: (scanLines initState ls).blocks } := by
  have h := scanLines_blocks_mono ls initState [b]
  simpa [initState] using h

/-- C10: a line that starts a record (two nonempty quoted tokens after
`resource`) and whose `{`/`}` counts are equal closes the record on that
same line: the scanner emits a record whose body is exactly the header
line, and the following lines are scanned from the initial state, where
a further resource header can start a new record. -/
theorem c10_balanced_header (h : String) (rt rn : String) (ls : List String)
    (hhdr : headerQuoted h = some (rt, rn)) (hrt : rt ≠ "") (hrn : rn ≠ "")
    (hbal : braceDelta h = 0) :
    extract_resource_blocks_lines (h :: ls) =
      { type := rt, name := pyOr (findActualName [h]) rn,
        content := h, identifier := rt ++ "." ++ rn } :: extract_resource_blocks_lines ls := by
  have hstep : stepLine initState h =
      (⟨[{ type := rt, name := pyOr (findActualName [h]) rn,
           content := h, identifier := rt ++ "." ++ rn }], [], 0, false, none, none⟩ :
        ScanState) := by
    unfold stepLine initState closeBlock
    simp [hhdr, hbal, truthy, hrt, hrn, intercalate_singleton]
  unfold extract_resource_blocks_lines
  have hfold : scanLines initState (h :: ls) = scanLines (stepLine initState h) ls := rfl
  rw [hfold, hstep, scanLines_one_block]

/-- C10 witness: a header with zero braces on its line closes at once and
the following line is scanned freshly. -/
theorem c10_witness :
    extract_resource_blocks_lines ["resource \"t\" \"n\"", "x"] =
      { type := "t", name := pyOr (findActualName ["resource \"t\" \"n\""]) "n",
        content := "resource \"t\" \"n\"", identifier := "t" ++ "." ++ "n" } ::
        extract_resource_blocks_lines ["x"] :=
  c10_balanced_header "resource \"t\" \"n\"" "t" "n" ["x"]
    (by decide) (by decide) (by decide) (by decide)

/-! ## C2: the extractor does not deduplicate; order of occurrence -/

/-- `takeWhile` and `dropWhile` split the length. -/
theorem length_decomp (p : Char → Bool) (l : List Char) :
    (l.takeWhile p).length + (l.dropWhile p).length = l.length := by
  conv_rhs => rw [← List.takeWhile_append_dropWhile (p := p) (l := l)]
  rw [List.length_append]

/-- A successful match consumes at least three characters. -/
theorem matchRef_some_length {cs : List Char} {id : String} {r : List Char}
    (h : matchRef cs = some (id, r)) : r.length + 3 ≤ cs.length := by
  have e1 := length_decomp isWordChar cs
  have n1 : 0 < (cs.takeWhile isWordChar).length ∨ (cs.takeWhile isWordChar) = [] := by
    rcases List.eq_nil_or_concat (cs.takeWhile isWordChar) with h' | ⟨_, _, h'⟩
    · exact Or.inr h'
    · exact Or.inl (by simp [h'])
  unfold matchRef at h
  simp only [] at h
  split at h
  · exact absurd h (by simp)
  · rename_i h1
    have n1' : 0 < (cs.takeWhile isWordChar).length := by
      rcases n1 with n1 | n1
      · exact n1
      · exact absurd n1 h1
    split at h
    · rename_i r2 heq
      rw [heq] at e1
      have e2 := length_decomp isWordChar r2
      split at h
      · exact absurd h (by simp)
      · rename_i h2
        have n2' : 0 < (r2.takeWhile isWordChar).length :=
          List.length_pos.mpr (fun hx => h2 hx)
        split at h
        · rename_i r4 heq3
          rw [heq3] at e2
          have e3 := length_decomp isWordChar r4
          split at h
          · rename_i h3
            have n3' : 0 < (r4.takeWhile isWordChar).length :=
              List.length_pos.mpr
                (of_decide_eq_true ((Bool.and_eq_true _ _).mp h3).1)
            rw [Option.some.injEq, Prod.mk.injEq] at h
            rw [← h.2]
            simp only [List.length_cons] at e1 e2
            omega
          · exact absurd h (by simp)
        · rename_i hne
          split at h
          · rw [Option.some.injEq, Prod.mk.injEq] at h
            rw [← h.2]
            simp only [List.length_cons] at e1
            omega
          · exact absurd h (by simp)
    · exact absurd h (by simp)

/-- The empty scan. -/
theorem scanRefsAux_nil (fuel pos : Nat) (atStart : Bool) :
    scanRefsAux fuel [] pos atStart = [] := by
  cases fuel <;> simp [scanRefsAux]

/-- One scan step on a `^`-anchored match. -/
theorem scanRefsAux_cons_start {c : Char} {rest : List Char} {id : String}
    {r : List Char} (fuel pos : Nat) (hm : matchRef (c :: rest) = some (id, r)) :
    scanRefsAux (fuel + 1) (c :: rest) pos true =
      (pos, id) :: scanRefsAux fuel r (pos + ((c :: rest).length - r.length)) false := by
  simp [scanRefsAux, hm]

/-- One scan step on a delimiter-preceded match. -/
theorem scanRefsAux_cons_delim {c : Char} {rest : List Char} {id : String}
    {r : List Char} (fuel pos : Nat) (hd : isRefDelim c = true)
    (hm : matchRef rest = some (id, r)) :
    scanRefsAux (fuel + 1) (c :: rest) pos false =
      (pos + 1, id) :: scanRefsAux fuel r (pos + 1 + (rest.length - r.length)) false := by
  simp [scanRefsAux, hd, hm]

/-- Captures are reported with positions bounded below by the scan
position, in strictly increasing order of position. -/
theorem scanRefsAux_pos_bound :
    ∀ (fuel : Nat) (cs : List Char) (pos : Nat) (atStart : Bool),
      (∀ e ∈ scanRefsAux fuel cs pos atStart, pos ≤ e.1) ∧
        List.Chain' (fun a b => a.1 < b.1) (scanRefsAux fuel cs pos atStart) := by
  intro fuel
  induction fuel with
  | zero => intro cs pos atStart; simp [scanRefsAux]
  | succ fuel ih =>
      intro cs pos atStart
      cases cs with
      | nil => simp [scanRefsAux]
      | cons c rest =>
          have hskip : ∀ (p : Nat),
              (∀ e ∈ scanRefsAux fuel rest (p + 1) false, p ≤ e.1) ∧
                List.Chain' (fun a b => a.1 < b.1) (scanRefsAux fuel rest (p + 1) false) := by
            intro p
            refine ⟨fun e he => ?_, (ih rest (p + 1) false).2⟩
            have := (ih rest (p + 1) false).1 e he
            omega
          have hcons : ∀ (pbase q : Nat) (id : String) (r : List Char) (pos' : Nat),
              pbase ≤ q → q < pos' →
              (∀ e ∈ ((q, id) :: scanRefsAux fuel r pos' false), pbase ≤ e.1) ∧
                List.Chain' (fun a b => a.1 < b.1)
                  ((q, id) :: scanRefsAux fuel r pos' false) := by
            intro pbase q id r pos' hpq hq
            obtain ⟨hlb, hch⟩ := ih r pos' false
            constructor
            · intro e he
              rcases List.mem_cons.mp he with rfl | he
              · exact hpq
              · have := hlb e he
                omega
            · refine List.chain'_cons'.mpr ⟨?_, hch⟩
              intro y hy
              have : pos' ≤ y.1 := hlb y (List.mem_of_mem_head? hy)
              omega
          cases atStart with
          | true =>
              rcases hm : matchRef (c :: rest) with _ | ⟨id, r⟩
              · by_cases hd : isRefDelim c = true
                · rcases hm2 : matchRef rest with _ | ⟨id2, r2⟩
                  · have := hskip pos
                    simpa [scanRefsAux, hm, hd, hm2] using this
                  · have hlen := matchRef_some_length hm2
                    have := hcons pos (pos + 1) id2 r2 (pos + 1 + (rest.length - r2.length))
                      (by omega) (by omega)
                    simpa [scanRefsAux, hm, hd, hm2] using this
                · have := hskip pos
                  simpa [scanRefsAux, hm, hd] using this
              · have hlen := matchRef_some_length hm
                have hlt : pos < pos + ((c :: rest).length - r.length) := by
                  simp only [List.length_cons] at hlen ⊢
                  omega
                have := hcons pos pos id r (pos + ((c :: rest).length - r.length))
                  (le_refl pos) hlt
                simpa [scanRefsAux, hm] using this
          | false =>
              by_cases hd : isRefDelim c = true
              · rcases hm2 : matchRef rest with _ | ⟨id2, r2⟩
                · have := hskip pos
                  simpa [scanRefsAux, hd, hm2] using this
                · have hlen := matchRef_some_length hm2
                  have := hcons pos (pos + 1) id2 r2 (pos + 1 + (rest.length - r2.length))
                    (by omega) (by omega)
                  simpa [scanRefsAux, hd, hm2] using this
              · have := hskip pos
                simpa [scanRefsAux, hd] using this

/-- C2 counterexample: the extractor is *not* deduplicated — a body
containing the reference `a.b` twice yields the identifier twice. -/
theorem c2_counterexample :
    extract_resource_references "a.b a.b" = ["a.b", "a.b"] ∧
      ¬ (extract_resource_references "a.b a.b").Nodup := by decide

/-- C2 amended: the returned list contains one entry per matched
occurrence, in the order of textual occurrence (the capture positions of
`extractRefsPos` are strictly increasing, and
`extract_resource_references` is exactly their capture strings). -/
theorem c2_occurrence_order (content : String) :
    List.Chain' (· < ·) ((extractRefsPos content).map Prod.fst) ∧
      extract_resource_references content = (extractRefsPos content).map Prod.snd := by
  refine ⟨?_, rfl⟩
  rw [List.chain'_map]
  exact (scanRefsAux_pos_bound (content.data.length + 1) content.data 0 true).2

/-! ## C5: a trailing attribute segment is stripped from references -/

/-- `String.data` of a literal. -/
theorem string_data_mk (l : List Char) : (String.mk l).data = l := rfl

/-- `takeWhile`/`dropWhile` split an appended run at its end. -/
theorem takeWhile_run_append {p : Char → Bool} :
    ∀ (xs ys : List Char), (∀ c ∈ xs, p c = true) → (∀ y ∈ ys.head?, p y = false) →
      (xs ++ ys).takeWhile p = xs ∧ (xs ++ ys).dropWhile p = ys := by
  intro xs
  induction xs with
  | nil =>
      intro ys _ hhead
      cases ys with
      | nil => simp
      | cons y ytail =>
          have hy : p y = false := hhead y (by simp)
          simp [List.takeWhile_cons, List.dropWhile_cons, hy]
  | cons x xs ih =>
      intro ys hall hhead
      have hx : p x = true := hall x (List.mem_cons_self x xs)
      have hrest := ih ys (fun c hc => hall c (List.mem_cons_of_mem x hc)) hhead
      simp [List.takeWhile_cons, List.dropWhile_cons, hx, hrest.1, hrest.2]

/-- Every character allowed by the lookahead is not a word character. -/
theorem lookahead_char_not_word {c : Char}
    (h : (isPySpace c || c = ')' || c = ']' || c = ',') = true) :
    isWordChar c = false := by
  simp only [isPySpace, Bool.or_eq_true, decide_eq_true_eq] at h
  rcases h with (((((((h | h) | h) | h) | h) | h) | h) | h) | h <;> subst h <;> decide

/-- Heads accepted by the lookahead are not word characters. -/
theorem lookahead_head_not_word {ys : List Char} (h : refLookahead ys = true) :
    ∀ y ∈ ys.head?, isWordChar y = false := by
  intro y hy
  cases ys with
  | nil => simp at hy
  | cons c rest =>
      simp only [List.head?_cons, Option.mem_some_iff] at hy
      subst hy
      exact lookahead_char_not_word h

/-- A three-segment token followed by a lookahead-accepted suffix matches,
capturing only the first two segments. -/
theorem matchRef_three_seg (s1 s2 s3 rest : List Char)
    (h1 : s1 ≠ []) (hw1 : ∀ c ∈ s1, isWordChar c = true)
    (h2 : s2 ≠ []) (hw2 : ∀ c ∈ s2, isWordChar c = true)
    (h3 : s3 ≠ []) (hw3 : ∀ c ∈ s3, isWordChar c = true)
    (hla : refLookahead rest = true) :
    matchRef (s1 ++ '.' :: s2 ++ '.' :: s3 ++ rest) =
      some (⟨s1 ++ '.' :: s2⟩, rest) := by
  have hd1 := takeWhile_run_append s1 ('.' :: s2 ++ '.' :: s3 ++ rest) hw1
    (by intro y hy; simp at hy; subst hy; decide)
  have hd2 := takeWhile_run_append s2 ('.' :: s3 ++ rest) hw2
    (by intro y hy; simp at hy; subst hy; decide)
  have hd3 := takeWhile_run_append s3 rest hw3 (lookahead_head_not_word hla)
  unfold matchRef
  simp only [List.cons_append, List.append_assoc] at hd1 hd2 hd3 ⊢
  rw [hd1.1, hd1.2]
  simp only [h1, if_false]
  rw [hd2.1, hd2.2]
  simp only [h2, if_false]
  rw [hd3.1, hd3.2]
  simp [h3, hla]

/-- A two-segment token at the very end of the text matches, capturing
both segments. -/
theorem matchRef_two_seg_end (t1 t2 : List Char)
    (h1 : t1 ≠ []) (hw1 : ∀ c ∈ t1, isWordChar c = true)
    (h2 : t2 ≠ []) (hw2 : ∀ c ∈ t2, isWordChar c = true) :
    matchRef (t1 ++ '.' :: t2) = some (⟨t1 ++ '.' :: t2⟩, []) := by
  have hd1 := takeWhile_run_append t1 ('.' :: t2) hw1
    (by intro y hy; simp at hy; subst hy; decide)
  have hd2 : t2.takeWhile isWordChar = t2 ∧ t2.dropWhile isWordChar = [] := by
    have := takeWhile_run_append t2 [] hw2 (by intro y hy; simp at hy)
    simpa using this
  unfold matchRef
  rw [hd1.1, hd1.2]
  simp only [h1, if_false]
  rw [hd2.1, hd2.2]
  simp [h2, refLookahead]

/-- C5: for a body consisting of a three-segment token
`s1.s2.s3` and a two-segment token `t1.t2` separated by a space (each
segment a nonempty word-character run), the extractor returns exactly
`s1.s2` and `t1.t2`: the trailing attribute segment `s3` is stripped and
only the first two segments form each identifier. -/
theorem c5_attr_stripped (s1 s2 s3 t1 t2 : List Char)
    (h1 : s1 ≠ []) (hw1 : ∀ c ∈ s1, isWordChar c = true)
    (h2 : s2 ≠ []) (hw2 : ∀ c ∈ s2, isWordChar c = true)
    (h3 : s3 ≠ []) (hw3 : ∀ c ∈ s3, isWordChar c = true)
    (h4 : t1 ≠ []) (hw4 : ∀ c ∈ t1, isWordChar c = true)
    (h5 : t2 ≠ []) (hw5 : ∀ c ∈ t2, isWordChar c = true) :
    extract_resource_references ⟨s1 ++ '.' :: s2 ++ '.' :: s3 ++ ' ' :: t1 ++ '.' :: t2⟩ =
      [⟨s1 ++ '.' :: s2⟩, ⟨t1 ++ '.' :: t2⟩] := by
  obtain ⟨a, s1', rfl⟩ := List.exists_cons_of_ne_nil h1
  have hm1 := matchRef_three_seg (a :: s1') s2 s3 (' ' :: (t1 ++ '.' :: t2))
    h1 hw1 h2 hw2 h3 hw3 (by simp [refLookahead, isPySpace])
  have hm2 := matchRef_two_seg_end t1 t2 h4 hw4 h5 hw5
  unfold extract_resource_references extractRefsPos
  simp only [List.cons_append, List.append_assoc, string_data_mk] at hm1 hm2 ⊢
  rw [scanRefsAux_cons_start _ _ hm1, List.length_cons,
    scanRefsAux_cons_delim _ _ (by decide) hm2, scanRefsAux_nil]
  simp

/-- C5 witness: the concrete body `kind_a.name_a.attr kind_b.name_b`
yields exactly `kind_a.name_a` and `kind_b.name_b`. -/
theorem c5_witness :
    extract_resource_references
        ⟨"kind_a".data ++ '.' :: "name_a".data ++ '.' :: "attr".data ++
          ' ' :: "kind_b".data ++ '.' :: "name_b".data⟩ =
      [⟨"kind_a".data ++ '.' :: "name_a".data⟩, ⟨"kind_b".data ++ '.' :: "name_b".data⟩] :=
  c5_attr_stripped "kind_a".data "name_a".data "attr".data "kind_b".data "name_b".data
    (by decide) (by decide) (by decide) (by decide) (by decide)
    (by decide) (by decide) (by decide) (by decide) (by decide)

/-! ## C3: the cluster-closure loop terminates (reaches a fixed point)

Member sets only grow during a pass, they are bounded by the finite set
of node ids occurring in the input, and a pass that changes anything
strictly increases the total member count — so
`|clusters| * |universe| + 1` passes reach a state that a further full
pass leaves unchanged, which is exactly the Python loop's exit
condition (`changed == False`).
-/

/-- Total member count of a cluster state. -/
def totalCard (st : CState) : Nat := (st.map (fun p => p.2.card)).sum

/-- Pointwise growth of a cluster state: same keys, members only grow. -/
def Grows (st st' : CState) : Prop :=
  List.Forall₂ (fun p q => p.1 = q.1 ∧ p.2 ⊆ q.2) st st'

theorem grows_refl (st : CState) : Grows st st := by
  induction st with
  | nil => exact List.Forall₂.nil
  | cons p st ih => exact List.Forall₂.cons ⟨rfl, Finset.Subset.refl _⟩ ih

theorem grows_trans {a b c : CState} (h1 : Grows a b) (h2 : Grows b c) : Grows a c := by
  induction h1 generalizing c with
  | nil => cases h2; exact .nil
  | cons hpq _ ih =>
      cases h2 with
      | cons hqr htail2 =>
          exact .cons ⟨hpq.1.trans hqr.1, hpq.2.trans hqr.2⟩ (ih htail2)

theorem grows_map_of_pointwise (st : CState)
    (f : String × Finset String → String × Finset String)
    (h : ∀ p ∈ st, p.1 = (f p).1 ∧ p.2 ⊆ (f p).2) : Grows st (st.map f) := by
  induction st with
  | nil => exact .nil
  | cons p st ih =>
      exact .cons (h p (List.mem_cons_self p st))
        (ih (fun q hq => h q (List.mem_cons_of_mem p hq)))

theorem grows_updateCluster (adj : String → Finset String) (st : CState) (cid : String) :
    Grows st (updateCluster adj st cid) := by
  apply grows_map_of_pointwise
  intro p _
  by_cases h : p.1 = cid <;> simp [h, Finset.subset_union_left]

theorem grows_foldl (adj : String → Finset String) :
    ∀ (keys : List String) (st : CState),
      Grows st (keys.foldl (updateCluster adj) st) := by
  intro keys
  induction keys with
  | nil => intro st; exact grows_refl st
  | cons k keys ih =>
      intro st
      exact grows_trans (grows_updateCluster adj st k) (ih (updateCluster adj st k))

theorem grows_onePass (adj : String → Finset String) (st : CState) :
    Grows st (onePass adj st) :=
  grows_foldl adj (st.map Prod.fst) st

theorem map_fst_of_preserve (st : CState)
    (f : String × Finset String → String × Finset String)
    (h : ∀ p, (f p).1 = p.1) :
    (st.map f).map Prod.fst = st.map Prod.fst := by
  induction st with
  | nil => rfl
  | cons p st ih => simp only [List.map_cons, List.cons.injEq]; exact ⟨h p, ih⟩

theorem keys_updateCluster (adj : String → Finset String) (st : CState) (cid : String) :
    (updateCluster adj st cid).map Prod.fst = st.map Prod.fst := by
  unfold updateCluster
  apply map_fst_of_preserve
  intro p
  by_cases h : p.1 = cid <;> simp [h]

theorem keys_foldl (adj : String → Finset String) :
    ∀ (keys : List String) (st : CState),
      (keys.foldl (updateCluster adj) st).map Prod.fst = st.map Prod.fst := by
  intro keys
  induction keys with
  | nil => intro st; rfl
  | cons k keys ih =>
      intro st
      rw [List.foldl_cons, ih, keys_updateCluster]

theorem keys_onePass (adj : String → Finset String) (st : CState) :
    (onePass adj st).map Prod.fst = st.map Prod.fst :=
  keys_foldl adj (st.map Prod.fst) st

theorem length_onePass (adj : String → Finset String) (st : CState) :
    (onePass adj st).length = st.length := by
  have h := congrArg List.length (keys_onePass adj st)
  simpa using h

/-- Member sets bounded by a universe of ids. -/
def BoundedBy (U : Finset String) (st : CState) : Prop := ∀ p ∈ st, p.2 ⊆ U

theorem newMembersOf_subset {U : Finset String} (adj : String → Finset String)
    (st : CState) (cid : String) (members : Finset String)
    (hAdj : ∀ x, adj x ⊆ U) : newMembersOf adj st cid members ⊆ U := by
  intro c hc
  simp only [newMembersOf, Finset.mem_biUnion, Finset.mem_filter] at hc
  obtain ⟨m, _, hcadj, _⟩ := hc
  exact hAdj m hcadj

theorem boundedBy_updateCluster {U : Finset String} (adj : String → Finset String)
    (st : CState) (cid : String) (hAdj : ∀ x, adj x ⊆ U)
    (h : BoundedBy U st) : BoundedBy U (updateCluster adj st cid) := by
  intro q hq
  simp only [updateCluster, List.mem_map] at hq
  obtain ⟨p, hp, rfl⟩ := hq
  by_cases hc : p.1 = cid
  · simp only [hc, if_pos rfl]
    exact Finset.union_subset (h p hp) (newMembersOf_subset adj st cid p.2 hAdj)
  · simp only [hc, if_neg, ite_false]
    exact h p hp

theorem boundedBy_foldl {U : Finset String} (adj : String → Finset String)
    (hAdj : ∀ x, adj x ⊆ U) :
    ∀ (keys : List String) (st : CState), BoundedBy U st →
      BoundedBy U (keys.foldl (updateCluster adj) st) := by
  intro keys
  induction keys with
  | nil => intro st h; exact h
  | cons k keys ih =>
      intro st h
      exact ih (updateCluster adj st k) (boundedBy_updateCluster adj st k hAdj h)

theorem boundedBy_onePass {U : Finset String} (adj : String → Finset String)
    (hAdj : ∀ x, adj x ⊆ U) (st : CState) (h : BoundedBy U st) :
    BoundedBy U (onePass adj st) :=
  boundedBy_foldl adj hAdj (st.map Prod.fst) st h

theorem totalCard_le_of_grows {st st' : CState} (h : Grows st st') :
    totalCard st ≤ totalCard st' := by
  induction h with
  | nil => exact le_refl _
  | cons hpq _ ih =>
      simp only [totalCard, List.map_cons, List.sum_cons] at ih ⊢
      exact Nat.add_le_add (Finset.card_le_card hpq.2) ih

theorem totalCard_lt_of_grows_ne {st st' : CState} (h : Grows st st') (hne : st ≠ st') :
    totalCard st < totalCard st' := by
  induction h with
  | nil => exact absurd rfl hne
  | @cons p q l1 l2 hpq htail ih =>
      by_cases hl : l1 = l2
      · subst hl
        have hpq_ne : p ≠ q := fun h' => hne (by rw [h'])
        have h2ne : p.2 ≠ q.2 := fun h2 => hpq_ne (Prod.ext_iff.mpr ⟨hpq.1, h2⟩)
        have hss : p.2 ⊂ q.2 := Finset.ssubset_iff_subset_ne.mpr ⟨hpq.2, h2ne⟩
        have hc := Finset.card_lt_card hss
        simp only [totalCard, List.map_cons, List.sum_cons]
        omega
      · have hlt := ih hl
        have hcard := Finset.card_le_card hpq.2
        simp only [totalCard, List.map_cons, List.sum_cons] at hlt ⊢
        omega

theorem totalCard_le_bound {U : Finset String} {st : CState} (h : BoundedBy U st) :
    totalCard st ≤ st.length * U.card := by
  induction st with
  | nil => simp [totalCard]
  | cons p st ih =>
      have h1 : p.2.card ≤ U.card :=
        Finset.card_le_card (h p (List.mem_cons_self p st))
      have h2 := ih (fun q hq => h q (List.mem_cons_of_mem p hq))
      simp only [totalCard, List.map_cons, List.sum_cons, List.length_cons] at h2 ⊢
      rw [Nat.succ_mul]
      omega

/-- With enough fuel, the pass iteration reaches a genuine fixed point. -/
theorem resolveAux_fix {U : Finset String} (adj : String → Finset String)
    (hAdj : ∀ x, adj x ⊆ U) :
    ∀ (fuel : Nat) (st : CState), BoundedBy U st →
      st.length * U.card < totalCard st + fuel →
      onePass adj (resolveAux adj fuel st) = resolveAux adj fuel st := by
  intro fuel
  induction fuel with
  | zero =>
      intro st hb hlt
      have := totalCard_le_bound hb
      omega
  | succ fuel ih =>
      intro st hb hlt
      by_cases heq : onePass adj st = st
      · simp [resolveAux, heq]
      · have hlt2 : (onePass adj st).length * U.card < totalCard (onePass adj st) + fuel := by
          have h1 := totalCard_lt_of_grows_ne (grows_onePass adj st)
            (fun h => heq h.symm)
          have h2 := length_onePass adj st
          rw [h2]
          omega
        have hres := ih (onePass adj st) (boundedBy_onePass adj hAdj st hb) hlt2
        simp only [resolveAux]
        rw [if_neg heq]
        exact hres

theorem adjOf_subset_universe (nodes : List YamlNode) (edges : List YamlEdge)
    (x : String) : adjOf edges x ⊆ clusterUniverse nodes edges := by
  intro c hc
  simp only [adjOf, Finset.mem_union, List.mem_toFinset, List.mem_map,
    List.mem_filter] at hc
  unfold clusterUniverse
  simp only [Finset.mem_union, List.mem_toFinset, List.mem_map]
  rcases hc with ⟨e, ⟨he, _⟩, rfl⟩ | ⟨e, ⟨he, _⟩, rfl⟩
  · exact Or.inr ⟨e, he, rfl⟩
  · exact Or.inl (Or.inr ⟨e, he, rfl⟩)

/-- Members of `addSeed` come from the old members or the new id. -/
theorem addSeed_mem_sub {acc : CState} {p id : String} :
    ∀ q ∈ addSeed acc p id, ∀ x ∈ q.2, (∃ q0 ∈ acc, x ∈ q0.2) ∨ x = id := by
  intro q hq x hx
  unfold addSeed at hq
  by_cases hex : acc.any (fun q => q.1 == p) = true
  · rw [if_pos hex] at hq
    simp only [List.mem_map] at hq
    obtain ⟨q0, hq0, rfl⟩ := hq
    by_cases hc : q0.1 = p
    · simp only [hc, if_pos rfl] at hx
      rcases Finset.mem_insert.mp hx with rfl | hx
      · exact Or.inr rfl
      · exact Or.inl ⟨q0, hq0, hx⟩
    · simp only [hc, if_neg, ite_false] at hx
      exact Or.inl ⟨q0, hq0, hx⟩
  · rw [if_neg hex] at hq
    rcases List.mem_append.mp hq with hq | hq
    · exact Or.inl ⟨q, hq, hx⟩
    · simp only [List.mem_singleton] at hq
      subst hq
      simp only [Finset.mem_singleton] at hx
      exact Or.inr hx

theorem seedFold_boundedBy {U : Finset String} :
    ∀ (nodes : List YamlNode) (acc : CState), BoundedBy U acc →
      (∀ n ∈ nodes, n.id ∈ U) →
      BoundedBy U (nodes.foldl seedStep acc) := by
  intro nodes
  induction nodes with
  | nil => intro acc h _; exact h
  | cons n nodes ih =>
      intro acc h hids
      rw [List.foldl_cons]
      apply ih
      · intro q hq x hx
        rcases hn : n.parent with _ | p
        · simp only [seedStep, hn] at hq
          exact h q hq hx
        · simp only [seedStep, hn] at hq
          have hq2 : q ∈ (if p ≠ "" then addSeed acc p n.id else acc) := hq
          by_cases hp : p ≠ ""
          · rw [if_pos hp] at hq2
            rcases addSeed_mem_sub q hq2 x hx with ⟨q0, hq0, hx0⟩ | rfl
            · exact h q0 hq0 hx0
            · exact hids n (List.mem_cons_self n nodes)
          · rw [if_neg hp] at hq2
            exact h q hq2 hx
      · intro m hm
        exact hids m (List.mem_cons_of_mem n hm)

/-- C3: for every finite node and edge list, the iterative cluster
closure reaches, within the fuel allowed by `get_cluster_nodes`, a state
on which a further full pass makes no change — the `while changed` loop
terminates with `changed = False`. -/
theorem c3_resolver_terminates (nodes : List YamlNode) (edges : List YamlEdge) :
    onePass (adjOf edges) (get_cluster_nodes nodes edges) =
      get_cluster_nodes nodes edges := by
  unfold get_cluster_nodes
  apply resolveAux_fix (U := clusterUniverse nodes edges) (adjOf edges)
    (adjOf_subset_universe nodes edges)
  · apply seedFold_boundedBy nodes [] (fun p hp => absurd hp (List.not_mem_nil p))
    intro n hn
    unfold clusterUniverse
    simp only [Finset.mem_union, List.mem_toFinset, List.mem_map]
    exact Or.inl (Or.inl ⟨n, hn, rfl⟩)
  · omega

/-! ## C1: cluster member sets are pairwise disjoint -/

/-- No node id belongs to the member sets of two clusters with different
ids. -/
def ClustersDisjoint (st : CState) : Prop :=
  ∀ p ∈ st, ∀ q ∈ st, p.1 ≠ q.1 → ∀ x ∈ p.2, x ∉ q.2

/-- Elements added to a cluster were claimed by no other cluster at the
time of the update. -/
theorem mem_newMembersOf_unclaimed {adj : String → Finset String} {st : CState}
    {cid : String} {members : Finset String} {c : String}
    (hc : c ∈ newMembersOf adj st cid members) :
    ∀ q ∈ st, q.1 ≠ cid → c ∉ q.2 := by
  simp only [newMembersOf, Finset.mem_biUnion, Finset.mem_filter] at hc
  obtain ⟨m, -, -, -, hunc⟩ := hc
  intro q hq hne hmem
  have hall := List.all_eq_true.mp hunc q hq
  rcases Bool.or_eq_true _ _ |>.mp hall with h1 | h1
  · exact hne (beq_iff_eq.mp h1)
  · rw [Bool.not_eq_true'] at h1
    exact decide_eq_false_iff_not.mp h1 hmem

/-- The first component is untouched by `updateCluster`'s map. -/
theorem updateCluster_entry_fst (adj : String → Finset String) (st : CState)
    (cid : String) (p : String × Finset String) :
    ((fun q => if q.1 = cid then (q.1, q.2 ∪ newMembersOf adj st q.1 q.2) else q) p).1 =
      p.1 := by
  by_cases h : p.1 = cid <;> simp [h]

/-- One cluster update preserves pairwise disjointness: every element it
adds is unclaimed by all other clusters at that moment. -/
theorem clustersDisjoint_updateCluster {adj : String → Finset String} {st : CState}
    {cid : String} (h : ClustersDisjoint st) :
    ClustersDisjoint (updateCluster adj st cid) := by
  intro a ha b hb hne x hxa hxb
  simp only [updateCluster, List.mem_map] at ha hb
  obtain ⟨a0, ha0, rfl⟩ := ha
  obtain ⟨b0, hb0, rfl⟩ := hb
  have hne0 : a0.1 ≠ b0.1 := by
    rw [updateCluster_entry_fst adj st cid a0, updateCluster_entry_fst adj st cid b0] at hne
    exact hne
  by_cases hac : a0.1 = cid <;> by_cases hbc : b0.1 = cid
  · exact hne0 (hac.trans hbc.symm)
  · simp only [hac, if_pos rfl] at hxa
    simp only [hbc, if_neg, ite_false] at hxb
    rcases Finset.mem_union.mp hxa with hxa | hxa
    · exact h a0 ha0 b0 hb0 hne0 x hxa hxb
    · exact mem_newMembersOf_unclaimed hxa b0 hb0 hbc hxb
  · simp only [hac, if_neg, ite_false] at hxa
    simp only [hbc, if_pos rfl] at hxb
    rcases Finset.mem_union.mp hxb with hxb | hxb
    · exact h a0 ha0 b0 hb0 hne0 x hxa hxb
    · exact mem_newMembersOf_unclaimed hxb a0 ha0 hac hxa
  · simp only [hac, if_neg, ite_false] at hxa
    simp only [hbc, if_neg, ite_false] at hxb
    exact h a0 ha0 b0 hb0 hne0 x hxa hxb

theorem clustersDisjoint_foldl {adj : String → Finset String} :
    ∀ (keys : List String) (st : CState), ClustersDisjoint st →
      ClustersDisjoint (keys.foldl (updateCluster adj) st) := by
  intro keys
  induction keys with
  | nil => intro st h; exact h
  | cons k keys ih =>
      intro st h
      exact ih (updateCluster adj st k) (clustersDisjoint_updateCluster h)

theorem clustersDisjoint_onePass {adj : String → Finset String} {st : CState}
    (h : ClustersDisjoint st) : ClustersDisjoint (onePass adj st) :=
  clustersDisjoint_foldl (st.map Prod.fst) st h

theorem clustersDisjoint_resolveAux {adj : String → Finset String} :
    ∀ (fuel : Nat) (st : CState), ClustersDisjoint st →
      ClustersDisjoint (resolveAux adj fuel st) := by
  intro fuel
  induction fuel with
  | zero => intro st h; exact h
  | succ fuel ih =>
      intro st h
      simp only [resolveAux]
      by_cases heq : onePass adj st = st
      · rw [if_pos heq]; exact h
      · rw [if_neg heq]; exact ih _ (clustersDisjoint_onePass h)

/-- Adding a fresh id to one cluster preserves pairwise disjointness. -/
theorem addSeed_disjoint {acc : CState} (hd : ClustersDisjoint acc) {p id : String}
    (hfresh : ∀ q ∈ acc, id ∉ q.2) : ClustersDisjoint (addSeed acc p id) := by
  unfold addSeed
  by_cases hex : acc.any (fun q => q.1 == p) = true
  · rw [if_pos hex]
    intro a ha b hb hne x hxa hxb
    simp only [List.mem_map] at ha hb
    obtain ⟨a0, ha0, rfl⟩ := ha
    obtain ⟨b0, hb0, rfl⟩ := hb
    have hfst : ∀ (q : String × Finset String),
        (if q.1 = p then (q.1, insert id q.2) else q).1 = q.1 := by
      intro q; by_cases h : q.1 = p <;> simp [h]
    rw [hfst a0, hfst b0] at hne
    have hne0 : a0.1 ≠ b0.1 := hne
    by_cases hac : a0.1 = p <;> by_cases hbc : b0.1 = p
    · exact hne0 (hac.trans hbc.symm)
    · simp only [hac, if_pos rfl] at hxa
      simp only [hbc, if_neg, ite_false] at hxb
      rcases Finset.mem_insert.mp hxa with rfl | hxa
      · exact hfresh b0 hb0 hxb
      · exact hd a0 ha0 b0 hb0 hne0 x hxa hxb
    · simp only [hac, if_neg, ite_false] at hxa
      simp only [hbc, if_pos rfl] at hxb
      rcases Finset.mem_insert.mp hxb with rfl | hxb
      · exact hfresh a0 ha0 hxa
      · exact hd a0 ha0 b0 hb0 hne0 x hxa hxb
    · simp only [hac, if_neg, ite_false] at hxa
      simp only [hbc, if_neg, ite_false] at hxb
      exact hd a0 ha0 b0 hb0 hne0 x hxa hxb
  · rw [if_neg hex]
    intro a ha b hb hne x hxa hxb
    rcases List.mem_append.mp ha with ha2 | ha2 <;>
      rcases List.mem_append.mp hb with hb2 | hb2
    · exact hd a ha2 b hb2 hne x hxa hxb
    · simp only [List.mem_singleton] at hb2
      subst hb2
      simp only [Finset.mem_singleton] at hxb
      subst hxb
      exact hfresh a ha2 hxa
    · simp only [List.mem_singleton] at ha2
      subst ha2
      simp only [Finset.mem_singleton] at hxa
      subst hxa
      exact hfresh b hb2 hxb
    · simp only [List.mem_singleton] at ha2 hb2
      subst ha2; subst hb2
      exact hne rfl

/-- Seeding from a node list with pairwise-distinct ids produces pairwise
disjoint clusters. -/
theorem seedFold_disjoint :
    ∀ (nodes : List YamlNode) (acc : CState),
      ClustersDisjoint acc →
      (∀ q ∈ acc, ∀ x ∈ q.2, x ∉ nodes.map YamlNode.id) →
      (nodes.map YamlNode.id).Nodup →
      ClustersDisjoint (nodes.foldl seedStep acc) := by
  intro nodes
  induction nodes with
  | nil => intro acc hd _ _; exact hd
  | cons n nodes ih =>
      intro acc hd hfresh hnodup
      rw [List.foldl_cons]
      have hnodup' := hnodup
      rw [List.map_cons, List.nodup_cons] at hnodup'
      apply ih (seedStep acc n) ?_ ?_ hnodup'.2
      · rcases hn : n.parent with _ | p
        · simp only [seedStep, hn]
          exact hd
        · simp only [seedStep, hn]
          show ClustersDisjoint (if p ≠ "" then addSeed acc p n.id else acc)
          by_cases hp : p ≠ ""
          · rw [if_pos hp]
            apply addSeed_disjoint hd
            intro q hq hmem
            exact hfresh q hq n.id hmem (by simp)
          · rw [if_neg hp]; exact hd
      · intro q hq x hx
        rcases hn : n.parent with _ | p
        · simp only [seedStep, hn] at hq
          exact fun hmem => hfresh q hq x hx (List.mem_cons_of_mem _ hmem)
        · simp only [seedStep, hn] at hq
          have hq2 : q ∈ (if p ≠ "" then addSeed acc p n.id else acc) := hq
          by_cases hp : p ≠ ""
          · rw [if_pos hp] at hq2
            rcases addSeed_mem_sub q hq2 x hx with ⟨q0, hq0, hx0⟩ | rfl
            · exact fun hmem => hfresh q0 hq0 x hx0 (List.mem_cons_of_mem _ hmem)
            · exact hnodup'.1
          · rw [if_neg hp] at hq2
            exact fun hmem => hfresh q hq2 x hx (List.mem_cons_of_mem _ hmem)

instance (st : CState) : Decidable (ClustersDisjoint st) :=
  inferInstanceAs (Decidable (∀ p ∈ st, ∀ q ∈ st, p.1 ≠ q.1 → ∀ x ∈ p.2, x ∉ q.2))

/-- C1 counterexample: the claim quantifies over *every* input node list;
when the same node id appears under two different parents, the seeding
step alone puts it into both clusters and the closure keeps it there, so
the member sets of clusters `a` and `b` both contain `x`. -/
theorem c1_counterexample :
    ¬ ClustersDisjoint
        (get_cluster_nodes [⟨"x", some "a"⟩, ⟨"x", some "b"⟩] []) := by decide

/-- C1 amended: when the node ids of the input are pairwise distinct (as
they are for any YAML document produced by the pipeline from records
with unique identifiers), every node id belongs to at most one cluster's
member set after the fixed-point computation: member sets of clusters
with different ids are disjoint. -/
theorem c1_clusters_disjoint (nodes : List YamlNode) (edges : List YamlEdge)
    (h : (nodes.map YamlNode.id).Nodup) :
    ClustersDisjoint (get_cluster_nodes nodes edges) := by
  unfold get_cluster_nodes
  apply clustersDisjoint_resolveAux
  exact seedFold_disjoint nodes []
    (fun p hp => absurd hp (List.not_mem_nil p))
    (fun q hq => absurd hq (List.not_mem_nil q)) h

/-- C1 witness: a two-node document with distinct ids and one edge; the
resulting clusters are disjoint. -/
theorem c1_witness :
    (([⟨"aws_vpc-main", some "region"⟩, ⟨"aws_subnet-private", some "vpc"⟩] :
        List YamlNode).map YamlNode.id).Nodup ∧
      ClustersDisjoint (get_cluster_nodes
        [⟨"aws_vpc-main", some "region"⟩, ⟨"aws_subnet-private", some "vpc"⟩]
        [⟨"aws_subnet-private", "aws_vpc-main"⟩]) :=
  ⟨by decide,
    c1_clusters_disjoint
      [⟨"aws_vpc-main", some "region"⟩, ⟨"aws_subnet-private", some "vpc"⟩]
      [⟨"aws_subnet-private", "aws_vpc-main"⟩] (by decide)⟩

end AwsDiagrams
